import Mathlib

/-!
Verification of the conflict-resolution engine of syncthing-task-resolve
(src/main.rs, src/config.rs).

The merge core (`History::merge`), the history map (`History::insert`), the
stable timestamp sort used for the snapshot processing order, and the
effect-trace of `main` (backup, delete, replace, retention pruning) are
embedded as executable Lean definitions, translated from the Rust source.
Timestamps (chrono NaiveDateTime / jiff civil DateTime) are modelled as
integers: both are totally ordered and only comparisons matter here.
-/

namespace STR

/-- A task record as `History` uses it (task_hookrs Task): stable uuid,
creation time `entry`, optional last-modification time `modified`, and all
other fields collapsed into an opaque `payload`. -/
structure Task where
  uuid : Nat
  entry : Int
  modified : Option Int
  payload : Nat
deriving DecidableEq, Repr

/-- The effective modification time of a record: `modified()` when present,
else the fallback to `entry()` (the two `match` expressions in
`History::merge`, src/main.rs lines 82-88 and 90-96). -/
def effectiveTime (t : Task) : Int :=
  match t.modified with
  | some m => m
  | none => t.entry

/-- The `while let` loop of `History::merge` (src/main.rs lines 89-103):
`saved` is the current candidate and `mt` its effective time; the candidate
is replaced only when the next entry's effective time is strictly greater. -/
def mergeLoop (saved : Task) (mt : Int) : List Task → Task
  | [] => saved
  | next :: rest =>
    let nmt := effectiveTime next
    if nmt > mt then mergeLoop next nmt rest else mergeLoop saved mt rest

/-- The per-item body of `History::merge`: start from the first entry of the
item's history list and fold the loop over the rest. -/
def mergeOne (first : Task) (rest : List Task) : Task :=
  mergeLoop first (effectiveTime first) rest

theorem mergeOne_nil (first : Task) : mergeOne first [] = first := rfl

theorem mergeOne_cons (first x : Task) (xs : List Task) :
    mergeOne first (x :: xs) =
      if effectiveTime x > effectiveTime first then mergeOne x xs
      else mergeOne first xs := rfl

theorem mergeOne_mem (first : Task) (rest : List Task) :
    mergeOne first rest ∈ first :: rest := by
  induction rest generalizing first with
  | nil => simp [mergeOne_nil]
  | cons x xs ih =>
    rw [mergeOne_cons]
    by_cases h : effectiveTime x > effectiveTime first
    · rw [if_pos h]
      exact List.mem_cons_of_mem first (ih x)
    · rw [if_neg h]
      rcases List.mem_cons.mp (ih first) with h1 | h1
      · rw [h1]
        exact List.mem_cons_self _ _
      · exact List.mem_cons_of_mem _ (List.mem_cons_of_mem _ h1)

theorem mergeOne_le (first : Task) (rest : List Task) :
    ∀ t ∈ first :: rest, effectiveTime t ≤ effectiveTime (mergeOne first rest) := by
  induction rest generalizing first with
  | nil =>
    intro t ht
    rcases List.mem_cons.mp ht with h | h
    · rw [h, mergeOne_nil]
    · exact absurd h (List.not_mem_nil t)
  | cons x xs ih =>
    intro t ht
    rw [mergeOne_cons]
    by_cases h : effectiveTime x > effectiveTime first
    · rw [if_pos h]
      rcases List.mem_cons.mp ht with h1 | h1
      · rw [h1]
        exact le_trans (le_of_lt h) (ih x x (List.mem_cons_self x xs))
      · exact ih x t h1
    · rw [if_neg h]
      rcases List.mem_cons.mp ht with h1 | h1
      · rw [h1]
        exact ih first first (List.mem_cons_self first xs)
      · rcases List.mem_cons.mp h1 with h2 | h2
        · rw [h2]
          exact le_trans (not_lt.mp h) (ih first first (List.mem_cons_self first xs))
        · exact ih first t (List.mem_cons_of_mem first h2)

/-- C1: for an item whose history entries have pairwise-distinct effective
times, the merge returns exactly the entry with the maximum effective time:
the result is an entry of the history, its effective time dominates every
entry, and any entry whose effective time dominates every entry is the
result. -/
theorem mergeOne_lastWriteWins (first : Task) (rest : List Task)
    (hdist : (first :: rest).Pairwise fun a b => effectiveTime a ≠ effectiveTime b) :
    mergeOne first rest ∈ first :: rest ∧
      (∀ t ∈ first :: rest, effectiveTime t ≤ effectiveTime (mergeOne first rest)) ∧
      ∀ t ∈ first :: rest,
        (∀ u ∈ first :: rest, effectiveTime u ≤ effectiveTime t) →
          t = mergeOne first rest := by
  refine ⟨mergeOne_mem first rest, mergeOne_le first rest, ?_⟩
  intro t ht hmax
  by_contra hne
  have hsym : Symmetric fun a b : Task => effectiveTime a ≠ effectiveTime b :=
    fun _ _ h => h.symm
  have hdiff := hdist.forall hsym ht (mergeOne_mem first rest) hne
  have h1 : effectiveTime t ≤ effectiveTime (mergeOne first rest) :=
    mergeOne_le first rest t ht
  have h2 : effectiveTime (mergeOne first rest) ≤ effectiveTime t :=
    hmax _ (mergeOne_mem first rest)
  exact hdiff (le_antisymm h1 h2)

theorem mergeOne_lastWriteWins_witness :
    ((⟨1, 0, some 5, 0⟩ : Task) :: [⟨1, 0, some 3, 1⟩]).Pairwise
        (fun a b => effectiveTime a ≠ effectiveTime b) ∧
      (mergeOne ⟨1, 0, some 5, 0⟩ [⟨1, 0, some 3, 1⟩] ∈
          (⟨1, 0, some 5, 0⟩ : Task) :: [⟨1, 0, some 3, 1⟩] ∧
        (∀ t ∈ (⟨1, 0, some 5, 0⟩ : Task) :: [⟨1, 0, some 3, 1⟩],
          effectiveTime t ≤ effectiveTime (mergeOne ⟨1, 0, some 5, 0⟩ [⟨1, 0, some 3, 1⟩])) ∧
        ∀ t ∈ (⟨1, 0, some 5, 0⟩ : Task) :: [⟨1, 0, some 3, 1⟩],
          (∀ u ∈ (⟨1, 0, some 5, 0⟩ : Task) :: [⟨1, 0, some 3, 1⟩],
            effectiveTime u ≤ effectiveTime t) →
            t = mergeOne ⟨1, 0, some 5, 0⟩ [⟨1, 0, some 3, 1⟩]) :=
  ⟨by decide, mergeOne_lastWriteWins ⟨1, 0, some 5, 0⟩ [⟨1, 0, some 3, 1⟩] (by decide)⟩

theorem mem_of_getElem_opt {α : Type} :
    ∀ (l : List α) (i : Nat) (a : α), l[i]? = some a → a ∈ l := by
  intro l
  induction l with
  | nil => intro i a h; simp at h
  | cons y ys ih =>
    intro i a h
    cases i with
    | zero =>
      rw [List.getElem?_cons_zero] at h
      rw [Option.some_inj.mp h]
      exact List.mem_cons_self _ _
    | succ n =>
      rw [List.getElem?_cons_succ] at h
      exact List.mem_cons_of_mem _ (ih n a h)

theorem mergeOne_firstMax_aux (first : Task) (rest : List Task) :
    ∃ i : Nat, (first :: rest)[i]? = some (mergeOne first rest) ∧
      ∀ j t, j < i → (first :: rest)[j]? = some t →
        effectiveTime t < effectiveTime (mergeOne first rest) := by
  induction rest generalizing first with
  | nil =>
    exact ⟨0, by simp [mergeOne_nil], fun j t hj _ => absurd hj (Nat.not_lt_zero j)⟩
  | cons x xs ih =>
    rw [mergeOne_cons]
    by_cases h : effectiveTime x > effectiveTime first
    · rw [if_pos h]
      obtain ⟨i, h1, h3⟩ := ih x
      refine ⟨i + 1, by simpa using h1, ?_⟩
      intro j t hj hget
      cases j with
      | zero =>
        have ht : t = first := by
          rw [List.getElem?_cons_zero] at hget
          exact (Option.some_inj.mp hget).symm
        have hx : effectiveTime x ≤ effectiveTime (mergeOne x xs) :=
          mergeOne_le x xs x (List.mem_cons_self x xs)
        rw [ht]
        exact lt_of_lt_of_le h hx
      | succ n =>
        rw [List.getElem?_cons_succ] at hget
        exact h3 n t (Nat.lt_of_succ_lt_succ hj) hget
    · rw [if_neg h]
      obtain ⟨i, h1, h3⟩ := ih first
      cases i with
      | zero =>
        have hr : first = mergeOne first xs := by
          rw [List.getElem?_cons_zero] at h1
          exact Option.some_inj.mp h1
        exact ⟨0, by simp [← hr], fun j t hj _ => absurd hj (Nat.not_lt_zero j)⟩
      | succ k =>
        rw [List.getElem?_cons_succ] at h1
        refine ⟨k + 2, by simpa using h1, ?_⟩
        intro j t hj hget
        have hfirst : effectiveTime first < effectiveTime (mergeOne first xs) :=
          h3 0 first (Nat.succ_pos k) (by simp)
        cases j with
        | zero =>
          have ht : t = first := by
            rw [List.getElem?_cons_zero] at hget
            exact (Option.some_inj.mp hget).symm
          rw [ht]
          exact hfirst
        | succ n =>
          cases n with
          | zero =>
            have ht : t = x := by
              rw [List.getElem?_cons_succ, List.getElem?_cons_zero] at hget
              exact (Option.some_inj.mp hget).symm
            rw [ht]
            exact lt_of_le_of_lt (not_lt.mp h) hfirst
          | succ m =>
            have hm : m + 1 < k + 1 := by omega
            rw [List.getElem?_cons_succ, List.getElem?_cons_succ] at hget
            have : ((first :: xs))[m + 1]? = some t := by
              rw [List.getElem?_cons_succ]
              exact hget
            exact h3 (m + 1) t hm this

/-- C4: the candidate is replaced only on a strictly greater effective time,
so the merge result is the earliest entry (in snapshot-processing order)
attaining the maximal effective time: there is an index holding the result
such that every entry at a strictly earlier index has a strictly smaller
effective time; in particular, for a history of two entries sharing one
effective time, the merge returns the earlier-seen entry. -/
theorem mergeOne_tieBreak :
    (∀ (first : Task) (rest : List Task),
      ∃ i : Nat, (first :: rest)[i]? = some (mergeOne first rest) ∧
        (∀ (j : Nat) (t : Task), (first :: rest)[j]? = some t →
          effectiveTime t ≤ effectiveTime (mergeOne first rest)) ∧
        ∀ j t, j < i → (first :: rest)[j]? = some t →
          effectiveTime t < effectiveTime (mergeOne first rest)) ∧
      ∀ a b : Task, effectiveTime a = effectiveTime b → mergeOne a [b] = a := by
  constructor
  · intro first rest
    obtain ⟨i, h1, h3⟩ := mergeOne_firstMax_aux first rest
    exact ⟨i, h1, fun j t hget =>
      mergeOne_le first rest t (mem_of_getElem_opt _ j t hget), h3⟩
  · intro a b hab
    rw [mergeOne_cons, if_neg (by rw [hab]; exact lt_irrefl _), mergeOne_nil]

theorem mergeOne_tieBreak_witness :
    effectiveTime ⟨1, 0, some 5, 0⟩ = effectiveTime ⟨1, 0, some 5, 1⟩ ∧
      mergeOne ⟨1, 0, some 5, 0⟩ [⟨1, 0, some 5, 1⟩] = ⟨1, 0, some 5, 0⟩ :=
  ⟨by decide, mergeOne_tieBreak.2 ⟨1, 0, some 5, 0⟩ ⟨1, 0, some 5, 1⟩ (by decide)⟩

/-- Replace an absent `modified` time by an explicit one equal to the
record's `entry` time; used to state that the merge treats the two
identically. -/
def fillModified (t : Task) : Task :=
  match t.modified with
  | some _ => t
  | none => { t with modified := some t.entry }

theorem effectiveTime_fill (t : Task) : effectiveTime (fillModified t) = effectiveTime t := by
  cases h : t.modified <;> simp [fillModified, effectiveTime, h]

/-- C6: a record lacking `modified_at` uses `entry_at` as its effective time
in all comparisons: the fallback equation holds, and the merge commutes with
explicitly filling `modified := entry` into such records, so the selection is
exactly the one made with `entry_at` standing in for the missing time. -/
theorem mergeOne_entryFallback :
    (∀ t : Task, t.modified = none → effectiveTime t = t.entry) ∧
      ∀ (first : Task) (rest : List Task),
        mergeOne (fillModified first) (rest.map fillModified) =
          fillModified (mergeOne first rest) := by
  constructor
  · intro t h
    simp [effectiveTime, h]
  · intro first rest
    induction rest generalizing first with
    | nil => simp [mergeOne_nil]
    | cons x xs ih =>
      simp only [List.map_cons]
      rw [mergeOne_cons, mergeOne_cons, effectiveTime_fill, effectiveTime_fill]
      by_cases h : effectiveTime x > effectiveTime first
      · rw [if_pos h, if_pos h, ih]
      · rw [if_neg h, if_neg h, ih]

theorem mergeOne_entryFallback_witness :
    (⟨1, 4, none, 0⟩ : Task).modified = none ∧
      effectiveTime ⟨1, 4, none, 0⟩ = (⟨1, 4, none, 0⟩ : Task).entry :=
  ⟨rfl, mergeOne_entryFallback.1 ⟨1, 4, none, 0⟩ rfl⟩

/-- The history map of `History` (src/main.rs lines 50-53): `item_id` to the
list of all entries seen for it. The Rust `HashMap<Uuid, Vec<Task>>` is
modelled as an association list whose keys are pairwise distinct. -/
structure History where
  tasks : List (Nat × List Task)
deriving DecidableEq, Repr

/-- `History::new` (src/main.rs lines 55-59). -/
def History.new : History := ⟨[]⟩

/-- Body of `History::insert` (src/main.rs lines 61-69): push onto the
existing key's list, else bind the key to a fresh one-element list. -/
def insertTasks : List (Nat × List Task) → Task → List (Nat × List Task)
  | [], t => [(t.uuid, [t])]
  | (k, vs) :: rest, t =>
    if k = t.uuid then (k, vs ++ [t]) :: rest else (k, vs) :: insertTasks rest t

/-- `History::insert`. -/
def History.insert (h : History) (t : Task) : History := ⟨insertTasks h.tasks t⟩

/-- One item's merge inside `History::merge`: the `history.next().unwrap()`
on the first element (src/main.rs line 81) is modelled as `Option`, `none`
standing for the panic on an empty history list. -/
def mergeItem : List Task → Option Task
  | [] => none
  | first :: rest => some (mergeOne first rest)

/-- `History::merge` (src/main.rs lines 71-109): merge every item's history
list; `none` when some `unwrap` in the loop would panic. -/
def History.merge (h : History) : Option (List Task) :=
  h.tasks.mapM fun p => mergeItem p.2

/-- The MergedHistory invariant: every observed `item_id` appears exactly
once as a key, and the entry list of a key is never empty. -/
def HistoryInv (h : History) : Prop :=
  (h.tasks.map Prod.fst).Nodup ∧ ∀ p ∈ h.tasks, p.2 ≠ []

theorem insertTasks_keys_sub (l : List (Nat × List Task)) (t : Task) :
    ∀ k ∈ (insertTasks l t).map Prod.fst, k ∈ l.map Prod.fst ∨ k = t.uuid := by
  induction l with
  | nil =>
    intro k hk
    simp [insertTasks] at hk
    exact Or.inr hk
  | cons p rest ih =>
    intro k hk
    obtain ⟨k0, vs⟩ := p
    by_cases h : k0 = t.uuid
    · rw [show insertTasks ((k0, vs) :: rest) t = (k0, vs ++ [t]) :: rest by
        simp [insertTasks, h]] at hk
      simp only [List.map_cons] at hk ⊢
      exact Or.inl hk
    · rw [show insertTasks ((k0, vs) :: rest) t = (k0, vs) :: insertTasks rest t by
        simp [insertTasks, h]] at hk
      simp only [List.map_cons, List.mem_cons] at hk ⊢
      rcases hk with hk | hk
      · exact Or.inl (Or.inl hk)
      · rcases ih k hk with h1 | h1
        · exact Or.inl (Or.inr h1)
        · exact Or.inr h1

theorem insertTasks_inv (l : List (Nat × List Task)) (t : Task)
    (hnd : (l.map Prod.fst).Nodup) (hne : ∀ p ∈ l, p.2 ≠ []) :
    ((insertTasks l t).map Prod.fst).Nodup ∧ ∀ p ∈ insertTasks l t, p.2 ≠ [] := by
  induction l with
  | nil =>
    refine ⟨by simp [insertTasks], ?_⟩
    intro p hp
    simp [insertTasks] at hp
    rw [hp]
    simp
  | cons q rest ih =>
    obtain ⟨k0, vs⟩ := q
    simp only [List.map_cons, List.nodup_cons] at hnd
    have hvs : vs ≠ [] := hne (k0, vs) (List.mem_cons_self _ _)
    have hrest : ∀ p ∈ rest, p.2 ≠ [] := fun p hp => hne p (List.mem_cons_of_mem _ hp)
    by_cases h : k0 = t.uuid
    · rw [show insertTasks ((k0, vs) :: rest) t = (k0, vs ++ [t]) :: rest by
        simp [insertTasks, h]]
      refine ⟨by simp [hnd.1, hnd.2], ?_⟩
      intro p hp
      rcases List.mem_cons.mp hp with h1 | h1
      · rw [h1]
        simp
      · exact hrest p h1
    · rw [show insertTasks ((k0, vs) :: rest) t = (k0, vs) :: insertTasks rest t by
        simp [insertTasks, h]]
      obtain ⟨ih1, ih2⟩ := ih hnd.2 hrest
      constructor
      · simp only [List.map_cons, List.nodup_cons]
        refine ⟨?_, ih1⟩
        intro hmem
        rcases insertTasks_keys_sub rest t k0 hmem with h1 | h1
        · exact hnd.1 h1
        · exact h h1
      · intro p hp
        rcases List.mem_cons.mp hp with h1 | h1
        · rw [h1]
          exact hvs
        · exact ih2 p h1

theorem mergeItem_isSome (l : List Task) (h : l ≠ []) : (mergeItem l).isSome := by
  cases l with
  | nil => exact absurd rfl h
  | cons a as => simp [mergeItem]

theorem merge_isSome_of_nonempty (l : List (Nat × List Task))
    (h : ∀ p ∈ l, p.2 ≠ []) : (l.mapM fun p => mergeItem p.2).isSome := by
  induction l with
  | nil => rfl
  | cons p ps ih =>
    rw [List.mapM_cons]
    obtain ⟨a, ha⟩ := Option.isSome_iff_exists.mp
      (mergeItem_isSome p.2 (h p (List.mem_cons_self p ps)))
    obtain ⟨as, has⟩ := Option.isSome_iff_exists.mp
      (ih fun q hq => h q (List.mem_cons_of_mem p hq))
    rw [ha, has]
    simp

/-- C10: the empty history satisfies the MergedHistory invariant, every
`History::insert` preserves it (each observed item id keyed exactly once,
every entry list non-empty), and under the invariant `History::merge` never
hits the `unwrap` panic on the first element of an item's list. -/
theorem history_insert_inv :
    HistoryInv History.new ∧
      (∀ (h : History) (t : Task), HistoryInv h → HistoryInv (h.insert t)) ∧
      ∀ h : History, HistoryInv h → (History.merge h).isSome := by
  refine ⟨⟨by simp [History.new], by simp [History.new]⟩, ?_, ?_⟩
  · intro h t hinv
    exact insertTasks_inv h.tasks t hinv.1 hinv.2
  · intro h hinv
    exact merge_isSome_of_nonempty h.tasks hinv.2

theorem history_insert_inv_witness :
    HistoryInv (History.new.insert ⟨1, 0, none, 0⟩) ∧
      (History.merge (History.new.insert ⟨1, 0, none, 0⟩)).isSome :=
  ⟨history_insert_inv.2.1 History.new ⟨1, 0, none, 0⟩ history_insert_inv.1,
    history_insert_inv.2.2 _
      (history_insert_inv.2.1 History.new ⟨1, 0, none, 0⟩ history_insert_inv.1)⟩

/-- Insert `x` into an already key-sorted accumulator, after every element
whose key is less than or equal to `x`'s key. Folding this from the left
over the input is a stable ascending sort by an integer key, the behaviour
of Rust's stable `sort_by_key` (src/main.rs lines 185 and 278). -/
def insertByKey {α : Type} (key : α → Int) (x : α) : List α → List α
  | [] => [x]
  | y :: ys => if key x < key y then x :: y :: ys else y :: insertByKey key x ys

/-- Stable ascending sort by an integer key. -/
def sortByKey {α : Type} (key : α → Int) (l : List α) : List α :=
  l.foldl (fun acc x => insertByKey key x acc) []

theorem insertByKey_perm {α : Type} (key : α → Int) (x : α) (l : List α) :
    List.Perm (insertByKey key x l) (x :: l) := by
  induction l with
  | nil => exact List.Perm.refl _
  | cons y ys ih =>
    by_cases h : key x < key y
    · rw [show insertByKey key x (y :: ys) = x :: y :: ys by simp [insertByKey, h]]
    · rw [show insertByKey key x (y :: ys) = y :: insertByKey key x ys by
        simp [insertByKey, h]]
      exact (ih.cons y).trans (List.Perm.swap x y ys)

theorem insertByKey_mem {α : Type} (key : α → Int) (x z : α) (l : List α)
    (h : z ∈ insertByKey key x l) : z = x ∨ z ∈ l := by
  have := (insertByKey_perm key x l).mem_iff.mp h
  exact List.mem_cons.mp this

theorem insertByKey_sorted {α : Type} (key : α → Int) (x : α) (l : List α)
    (hl : l.Pairwise fun a b => key a ≤ key b) :
    (insertByKey key x l).Pairwise fun a b => key a ≤ key b := by
  induction l with
  | nil => simp [insertByKey]
  | cons y ys ih =>
    obtain ⟨hy, hys⟩ := List.pairwise_cons.mp hl
    by_cases h : key x < key y
    · rw [show insertByKey key x (y :: ys) = x :: y :: ys by simp [insertByKey, h]]
      refine List.pairwise_cons.mpr ⟨?_, hl⟩
      intro z hz
      rcases List.mem_cons.mp hz with h1 | h1
      · rw [h1]
        exact le_of_lt h
      · exact le_trans (le_of_lt h) (hy z h1)
    · rw [show insertByKey key x (y :: ys) = y :: insertByKey key x ys by
        simp [insertByKey, h]]
      refine List.pairwise_cons.mpr ⟨?_, ih hys⟩
      intro z hz
      rcases insertByKey_mem key x z ys hz with h1 | h1
      · rw [h1]
        exact not_lt.mp h
      · exact hy z h1

theorem sortByKey_go_sorted {α : Type} (key : α → Int) :
    ∀ (l acc : List α), acc.Pairwise (fun a b => key a ≤ key b) →
      (l.foldl (fun a x => insertByKey key x a) acc).Pairwise fun a b => key a ≤ key b := by
  intro l
  induction l with
  | nil => intro acc h; exact h
  | cons x xs ih =>
    intro acc h
    rw [List.foldl_cons]
    exact ih _ (insertByKey_sorted key x acc h)

theorem sortByKey_sorted {α : Type} (key : α → Int) (l : List α) :
    (sortByKey key l).Pairwise fun a b => key a ≤ key b :=
  sortByKey_go_sorted key l [] (List.Pairwise.nil)

theorem sortByKey_go_perm {α : Type} (key : α → Int) :
    ∀ (l acc : List α),
      List.Perm (l.foldl (fun a x => insertByKey key x a) acc) (l ++ acc) := by
  intro l
  induction l with
  | nil => intro acc; simp
  | cons x xs ih =>
    intro acc
    rw [List.foldl_cons]
    have h1 := ih (insertByKey key x acc)
    have h2 : List.Perm (xs ++ insertByKey key x acc) (xs ++ (x :: acc)) :=
      List.Perm.append_left xs (insertByKey_perm key x acc)
    have h3 : List.Perm (xs ++ (x :: acc)) (x :: (xs ++ acc)) := List.perm_middle
    rw [List.cons_append]
    exact (h1.trans h2).trans h3

theorem sortByKey_perm {α : Type} (key : α → Int) (l : List α) :
    List.Perm (sortByKey key l) l := by
  have := sortByKey_go_perm key l []
  rw [List.append_nil] at this
  exact this

theorem filter_insertByKey {α : Type} (key : α → Int) (t : Int) (x : α) :
    ∀ l : List α, l.Pairwise (fun a b => key a ≤ key b) →
      (insertByKey key x l).filter (fun a => key a == t) =
        l.filter (fun a => key a == t) ++ if key x == t then [x] else [] := by
  intro l
  induction l with
  | nil =>
    intro _
    simp only [insertByKey, List.filter_cons, List.filter_nil]
    by_cases h : key x = t <;> simp [h]
  | cons y ys ih =>
    intro hl
    obtain ⟨hy, hys⟩ := List.pairwise_cons.mp hl
    by_cases h : key x < key y
    · rw [show insertByKey key x (y :: ys) = x :: y :: ys by simp [insertByKey, h]]
      by_cases hx : key x = t
      · have hnil : (y :: ys).filter (fun a => key a == t) = [] := by
          rw [List.filter_eq_nil_iff]
          intro a ha
          have : key x < key a := by
            rcases List.mem_cons.mp ha with h1 | h1
            · rw [h1]; exact h
            · exact lt_of_lt_of_le h (hy a h1)
          simp only [beq_iff_eq]
          omega
        rw [List.filter_cons_of_pos (by simp [hx]), hnil]
        simp [hx]
      · rw [List.filter_cons_of_neg (by simp [hx])]
        simp [hx]
    · rw [show insertByKey key x (y :: ys) = y :: insertByKey key x ys by
        simp [insertByKey, h]]
      by_cases hyt : key y = t
      · rw [List.filter_cons_of_pos (by simp [hyt]), List.filter_cons_of_pos (by simp [hyt]),
          ih hys, List.cons_append]
      · rw [List.filter_cons_of_neg (by simp [hyt]), List.filter_cons_of_neg (by simp [hyt]),
          ih hys]

theorem filter_sortByKey_go {α : Type} (key : α → Int) (t : Int) :
    ∀ (l acc : List α), acc.Pairwise (fun a b => key a ≤ key b) →
      (l.foldl (fun a x => insertByKey key x a) acc).filter (fun a => key a == t) =
        acc.filter (fun a => key a == t) ++ l.filter (fun a => key a == t) := by
  intro l
  induction l with
  | nil => intro acc _; simp
  | cons x xs ih =>
    intro acc hacc
    rw [List.foldl_cons, ih (insertByKey key x acc) (insertByKey_sorted key x acc hacc),
      filter_insertByKey key t x acc hacc]
    by_cases hx : key x = t
    · rw [List.filter_cons_of_pos (by simp [hx])]
      simp [hx]
    · rw [List.filter_cons_of_neg (by simp [hx])]
      simp [hx]

/-- Stability of the sort: elements sharing a key keep their original
relative order (the filter at any key is unchanged). -/
theorem sortByKey_stable {α : Type} (key : α → Int) (t : Int) (l : List α) :
    (sortByKey key l).filter (fun a => key a == t) = l.filter (fun a => key a == t) := by
  have := filter_sortByKey_go key t l [] (List.Pairwise.nil)
  rw [List.filter_nil, List.nil_append] at this
  exact this

/-- One discovered conflict snapshot (src/main.rs lines 150-165): parsed
filename timestamp, device code, file path. -/
structure Conflict where
  timestamp : Int
  device : String
  path : String
deriving DecidableEq, Repr

/-- One entry of the backup state directory at pruning time: the folder name
together with the result of parsing it back with `DateTime::strptime`
(`none` models an unparseable name, src/main.rs line 269). -/
structure StateEntry where
  name : String
  parsed : Option Int
deriving DecidableEq, Repr

/-- The CLI flags (src/main.rs lines 33-42). `dry_run` is declared there
with the doc comment "Do not actually make changes, only report what would
happen". -/
structure Cli where
  task_dir : Option String
  dry_run : Bool
deriving DecidableEq, Repr

/-- `DEFAULT_KEEP_NUM` (src/config.rs line 5). -/
def DEFAULT_KEEP_NUM : Nat := 100

/-- The ambient state `main` runs against: the scanned conflicts in
discovery order, the canonical database's filesystem modification time, the
outcomes of the import subprocess (spawn success, stdin-writer success, exit
status), the state-directory listing at pruning time, and the `keep` config
option. -/
structure World where
  conflicts : List Conflict
  mainDbTs : Int
  spawnOk : Bool
  streamOk : Bool
  importExit : Int
  stateEntries : List StateEntry
  keep : Option Nat
deriving DecidableEq, Repr

/-- Fatal outcomes of a run: the `bail!` on a spawn failure (src/main.rs
line 223) and the `unwrap` panic on an unparseable backup-folder name
(src/main.rs line 269). -/
inductive Err where
  | spawnError
  | retentionError
deriving DecidableEq, Repr

/-- Filesystem and subprocess effects of `main`, in program order:
creating the timestamped backup folder (line 173), copying a database into a
scratch temp dir for extraction (line 195), spawning `task import`
(line 216), copying an original into the backup folder (line 251), removing
an original file (line 252), replacing the canonical database (line 257),
and recursively deleting a backup folder during pruning (line 284). -/
inductive Action where
  | createBackupDir
  | scratchCopy (src : String)
  | spawnImport
  | backupCopy (src : String)
  | removeFile (p : String)
  | replaceMainDb
  | removeDirAll (dir : String)
deriving DecidableEq, Repr

/-- The collect at src/main.rs lines 265-272: parse every state-dir folder
name into a timestamp; the per-entry `unwrap` makes one unparseable name
abort the whole collect before anything is removed. -/
def parseEntries : List StateEntry → Option (List (Int × String))
  | [] => some []
  | e :: es =>
    match e.parsed with
    | none => none
    | some t => (parseEntries es).map fun rest => (t, e.name) :: rest

/-- Retention pruning (src/main.rs lines 260-286): if more state-dir entries
exist than `keep` (default `DEFAULT_KEEP_NUM`), sort by timestamp and
recursively delete the oldest `count - keep` folders. Returns the effect
trace and the fatal outcome, if any. -/
def prune (w : World) : List Action × Option Err :=
  match parseEntries w.stateEntries with
  | none => ([], some Err.retentionError)
  | some entries =>
    let num_to_keep := w.keep.getD DEFAULT_KEEP_NUM
    if entries.length > num_to_keep then
      let diff := entries.length - num_to_keep
      let sorted := sortByKey (fun p => p.1) entries
      (((sorted.take diff).map fun p => Action.removeDirAll p.2), none)
    else ([], none)

/-- The canonical database added as an implicit conflict entry with the
file's modification time and the sentinel device id (src/main.rs
lines 175-182). -/
def mainDbEntry (w : World) : Conflict :=
  { timestamp := w.mainDbTs, device := "------", path := "taskchampion.sqlite3" }

/-- The snapshot processing order (src/main.rs lines 175-185): append the
canonical database to the discovered conflicts, then stable-sort by
timestamp ascending. -/
def processingOrder (w : World) : List Conflict :=
  sortByKey (fun c => c.timestamp) (w.conflicts ++ [mainDbEntry w])

/-- The effect trace of `main` (src/main.rs lines 112-289). The conflict
branch runs only when the scan found conflicts: create the backup folder,
scratch-copy each database in processing order for extraction, spawn
the import (a spawn failure aborts here via `bail!`); the code captures but
never tests the subprocess exit status or the stdin-writer outcome, so it
proceeds unconditionally to backup-copy and delete every original and
replace the canonical database, and finally prunes. `args.dry_run` is
parsed but read nowhere in `main`, so the trace does not depend on it. -/
def runMain (args : Cli) (w : World) : List Action × Option Err :=
  if w.conflicts.isEmpty then prune w
  else
    let order := processingOrder w
    let scratch := order.map fun c => Action.scratchCopy c.path
    if w.spawnOk then
      let backups := order.flatMap fun c => [Action.backupCopy c.path, Action.removeFile c.path]
      let p := prune w
      (Action.createBackupDir :: scratch ++ [Action.spawnImport] ++ backups ++
        [Action.replaceMainDb] ++ p.1, p.2)
    else
      (Action.createBackupDir :: scratch, some Err.spawnError)

theorem parseEntries_length :
    ∀ (l : List StateEntry) (es : List (Int × String)),
      parseEntries l = some es → es.length = l.length := by
  intro l
  induction l with
  | nil =>
    intro es h
    simp [parseEntries] at h
    rw [h]
    rfl
  | cons e fs ih =>
    intro es h
    simp only [parseEntries] at h
    cases hp : e.parsed with
    | none => rw [hp] at h; simp at h
    | some t =>
      rw [hp] at h
      cases hq : parseEntries fs with
      | none => rw [hq] at h; simp at h
      | some rest =>
        rw [hq] at h
        have h2 : (t, e.name) :: rest = es := Option.some_inj.mp h
        rw [← h2]
        simp [ih rest hq]

theorem parseEntries_none (l : List StateEntry) (e : StateEntry)
    (he : e ∈ l) (hpe : e.parsed = none) : parseEntries l = none := by
  induction l with
  | nil => exact absurd he (List.not_mem_nil e)
  | cons f fs ih =>
    rcases List.mem_cons.mp he with h | h
    · rw [h] at hpe
      simp [parseEntries, hpe]
    · simp only [parseEntries]
      cases hf : f.parsed with
      | none => rfl
      | some t => rw [ih h]; rfl

theorem prune_parse_none {w : World} (hp : parseEntries w.stateEntries = none) :
    prune w = ([], some Err.retentionError) := by
  unfold prune
  rw [hp]

theorem prune_parse_some {w : World} {entries : List (Int × String)}
    (hp : parseEntries w.stateEntries = some entries) :
    prune w =
      if entries.length > w.keep.getD DEFAULT_KEEP_NUM then
        (((sortByKey (fun p => p.1) entries).take
            (entries.length - w.keep.getD DEFAULT_KEEP_NUM)).map
          fun p => Action.removeDirAll p.2, none)
      else ([], none) := by
  unfold prune
  rw [hp]

/-- C5: the snapshot processing order fed into the merge is the conflict
entries with the canonical database appended, sorted by timestamp
ascending; it is a permutation of the discovered entries, and entries with
equal timestamps keep their original discovery order (the filter at every
timestamp is unchanged), so the order is deterministic and reproducible. -/
theorem processingOrder_spec (w : World) :
    (processingOrder w).Pairwise (fun a b => a.timestamp ≤ b.timestamp) ∧
      List.Perm (processingOrder w) (w.conflicts ++ [mainDbEntry w]) ∧
      ∀ t : Int, (processingOrder w).filter (fun c => c.timestamp == t) =
        (w.conflicts ++ [mainDbEntry w]).filter (fun c => c.timestamp == t) := by
  refine ⟨?_, ?_, ?_⟩
  · exact sortByKey_sorted (fun c : Conflict => c.timestamp) (w.conflicts ++ [mainDbEntry w])
  · exact sortByKey_perm (fun c : Conflict => c.timestamp) (w.conflicts ++ [mainDbEntry w])
  · exact fun t =>
      sortByKey_stable (fun c : Conflict => c.timestamp) t (w.conflicts ++ [mainDbEntry w])

/-- World with one conflict where the import subprocess exits non-zero and
the stdin-writer thread fails. -/
def w2 : World :=
  { conflicts := [⟨5, "AAAAAAA", "conflictA"⟩], mainDbTs := 3, spawnOk := true,
    streamOk := false, importExit := 1, stateEntries := [], keep := some 100 }

/-- C2 is false on the code: with a non-zero import exit status and a failed
stdin writer, the run does not abort — it completes with no error and still
backup-copies, deletes the originals (the conflict file and the canonical
database), and replaces the canonical database, because `main` never tests
`output.status` and never joins the writer thread. -/
theorem reimport_failure_not_fatal :
    w2.importExit ≠ 0 ∧ w2.streamOk = false ∧
      (runMain ⟨none, false⟩ w2).2 = none ∧
      Action.removeFile "conflictA" ∈ (runMain ⟨none, false⟩ w2).1 ∧
      Action.removeFile "taskchampion.sqlite3" ∈ (runMain ⟨none, false⟩ w2).1 ∧
      Action.replaceMainDb ∈ (runMain ⟨none, false⟩ w2).1 := by
  decide

/-- C2 amended: only a failure to spawn the external program is fatal; it
aborts the run with the `bail!` strictly before any backup copy, file
deletion, or canonical replacement — the only effects already performed are
the backup-folder creation and the read-only scratch copies. -/
theorem spawn_failure_aborts (args : Cli) (w : World)
    (hs : w.spawnOk = false) (hc : w.conflicts ≠ []) :
    (runMain args w).2 = some Err.spawnError ∧
      ∀ a ∈ (runMain args w).1,
        a = Action.createBackupDir ∨ ∃ s, a = Action.scratchCopy s := by
  have hne : w.conflicts.isEmpty = false := by
    cases h : w.conflicts with
    | nil => exact absurd h hc
    | cons c cs => rfl
  constructor
  · simp [runMain, hne, hs]
  · intro a ha
    simp only [runMain, hne, hs, Bool.false_eq_true, if_false] at ha
    rcases List.mem_cons.mp ha with h | h
    · exact Or.inl h
    · obtain ⟨c, _, hca⟩ := List.mem_map.mp h
      exact Or.inr ⟨c.path, hca.symm⟩

/-- World with one conflict where the import subprocess fails to spawn. -/
def w2b : World :=
  { conflicts := [⟨5, "AAAAAAA", "conflictA"⟩], mainDbTs := 3, spawnOk := false,
    streamOk := true, importExit := 0, stateEntries := [], keep := some 100 }

theorem spawn_failure_aborts_witness :
    w2b.spawnOk = false ∧ w2b.conflicts ≠ [] ∧
      ((runMain ⟨none, false⟩ w2b).2 = some Err.spawnError ∧
        ∀ a ∈ (runMain ⟨none, false⟩ w2b).1,
          a = Action.createBackupDir ∨ ∃ s, a = Action.scratchCopy s) :=
  ⟨rfl, by decide, spawn_failure_aborts ⟨none, false⟩ w2b rfl (by decide)⟩

/-- World with one conflict and a fully successful import. -/
def w3 : World :=
  { conflicts := [⟨5, "AAAAAAA", "conflictA"⟩], mainDbTs := 3, spawnOk := true,
    streamOk := true, importExit := 0, stateEntries := [], keep := some 100 }

/-- C3 fails on the code: `args.dry_run` is parsed (with the doc comment
"Do not actually make changes, only report what would happen") but read
nowhere in `main`, so a dry run produces exactly the trace of a normal run;
with one conflict present it still spawns the import, deletes the original
file, and replaces the canonical database. -/
theorem dryRun_not_honored :
    (∀ (args : Cli) (w : World),
      runMain args w = runMain { task_dir := args.task_dir, dry_run := false } w) ∧
      Action.spawnImport ∈ (runMain ⟨none, true⟩ w3).1 ∧
      Action.removeFile "conflictA" ∈ (runMain ⟨none, true⟩ w3).1 ∧
      Action.replaceMainDb ∈ (runMain ⟨none, true⟩ w3).1 :=
  ⟨fun _ _ => rfl, by decide, by decide, by decide⟩

/-- C7: with zero conflicts the run is exactly retention pruning — no file
removal, no backup-folder creation, no import spawn; every action the run
can still perform is a retention `remove_dir_all`. -/
theorem runMain_noConflicts (args : Cli) (w : World) (h : w.conflicts = []) :
    runMain args w = prune w ∧
      ∀ a ∈ (prune w).1, ∃ d, a = Action.removeDirAll d := by
  constructor
  · simp [runMain, h]
  · intro a ha
    cases hp : parseEntries w.stateEntries with
    | none => rw [prune_parse_none hp] at ha; simp at ha
    | some entries =>
      rw [prune_parse_some hp] at ha
      by_cases hgt : entries.length > w.keep.getD DEFAULT_KEEP_NUM
      · rw [if_pos hgt] at ha
        simp only [List.mem_map] at ha
        obtain ⟨p, _, hpa⟩ := ha
        exact ⟨p.2, hpa.symm⟩
      · rw [if_neg hgt] at ha
        simp at ha

/-- World with no conflicts and two prunable backup folders. -/
def w7 : World :=
  { conflicts := [], mainDbTs := 0, spawnOk := true, streamOk := true,
    importExit := 0, stateEntries := [⟨"f1", some 1⟩, ⟨"f2", some 2⟩], keep := some 0 }

theorem runMain_noConflicts_witness :
    w7.conflicts = [] ∧
      (runMain ⟨none, false⟩ w7 = prune w7 ∧
        ∀ a ∈ (prune w7).1, ∃ d, a = Action.removeDirAll d) :=
  ⟨rfl, runMain_noConflicts ⟨none, false⟩ w7 rfl⟩

/-- C8: with every folder name parseable, n folders and retention limit k
(the `keep` option, default `DEFAULT_KEEP_NUM` = 100): n ≤ k removes
nothing; n > k removes exactly n - k folders, each of timestamp less than
or equal to every kept folder's timestamp (the oldest ones); k = 0 removes
every folder. -/
theorem prune_retention (w : World) (entries : List (Int × String)) (k n : Nat)
    (hp : parseEntries w.stateEntries = some entries)
    (hk : k = w.keep.getD DEFAULT_KEEP_NUM) (hn : n = w.stateEntries.length) :
    (n ≤ k → prune w = ([], none)) ∧
      (k < n → ∃ removed kept : List (Int × String),
        List.Perm (removed ++ kept) entries ∧
        removed.length = n - k ∧
        (∀ r ∈ removed, ∀ s ∈ kept, r.1 ≤ s.1) ∧
        prune w = (removed.map fun p => Action.removeDirAll p.2, none)) ∧
      (k = 0 → ∃ alldel : List (Int × String), List.Perm alldel entries ∧
        prune w = (alldel.map fun p => Action.removeDirAll p.2, none)) := by
  have hlen : entries.length = n := by
    rw [hn]
    exact parseEntries_length w.stateEntries entries hp
  have hslen : (sortByKey (fun p => p.1) entries).length = entries.length :=
    (sortByKey_perm (fun p => p.1) entries).length_eq
  have hmain : k < n → ∃ removed kept : List (Int × String),
      List.Perm (removed ++ kept) entries ∧
      removed.length = n - k ∧
      (∀ r ∈ removed, ∀ s ∈ kept, r.1 ≤ s.1) ∧
      prune w = (removed.map fun p => Action.removeDirAll p.2, none) := by
    intro hlt
    refine ⟨(sortByKey (fun p => p.1) entries).take (entries.length - k),
      (sortByKey (fun p => p.1) entries).drop (entries.length - k), ?_, ?_, ?_, ?_⟩
    · rw [List.take_append_drop]
      exact sortByKey_perm (fun p => p.1) entries
    · rw [List.length_take]
      omega
    · have hsort := sortByKey_sorted (fun p => p.1) entries
      rw [← List.take_append_drop (entries.length - k) (sortByKey (fun p => p.1) entries)]
        at hsort
      exact (List.pairwise_append.mp hsort).2.2
    · rw [prune_parse_some hp, if_pos (by omega), hk]
  refine ⟨?_, hmain, ?_⟩
  · intro hle
    rw [prune_parse_some hp, if_neg (by omega)]
  · intro hk0
    by_cases hzero : n = 0
    · have hent : entries = [] := List.length_eq_zero.mp (by omega)
      refine ⟨[], by rw [hent], ?_⟩
      rw [prune_parse_some hp, if_neg (by omega)]
      simp
    · obtain ⟨removed, kept, hperm, hrl, _, hpr⟩ := hmain (by omega)
      have hkept : kept = [] := by
        have h1 := hperm.length_eq
        rw [List.length_append] at h1
        have : kept.length = 0 := by omega
        exact List.length_eq_zero.mp this
      rw [hkept, List.append_nil] at hperm
      exact ⟨removed, hperm, hpr⟩

/-- World with three parseable backup folders and a retention limit of 1. -/
def w8 : World :=
  { conflicts := [], mainDbTs := 0, spawnOk := true, streamOk := true,
    importExit := 0,
    stateEntries := [⟨"d3", some 3⟩, ⟨"d1", some 1⟩, ⟨"d2", some 2⟩], keep := some 1 }

theorem prune_retention_witness :
    parseEntries w8.stateEntries = some [(3, "d3"), (1, "d1"), (2, "d2")] ∧
      (1 : Nat) = w8.keep.getD DEFAULT_KEEP_NUM ∧
      (3 : Nat) = w8.stateEntries.length ∧
      ((3 ≤ 1 → prune w8 = ([], none)) ∧
        (1 < 3 → ∃ removed kept : List (Int × String),
          List.Perm (removed ++ kept) [(3, "d3"), (1, "d1"), (2, "d2")] ∧
          removed.length = 3 - 1 ∧
          (∀ r ∈ removed, ∀ s ∈ kept, r.1 ≤ s.1) ∧
          prune w8 = (removed.map fun p => Action.removeDirAll p.2, none)) ∧
        (1 = 0 → ∃ alldel : List (Int × String),
          List.Perm alldel [(3, "d3"), (1, "d1"), (2, "d2")] ∧
          prune w8 = (alldel.map fun p => Action.removeDirAll p.2, none))) :=
  ⟨by decide, rfl, rfl,
    prune_retention w8 [(3, "d3"), (1, "d1"), (2, "d2")] 1 3 (by decide) rfl rfl⟩

/-- C9: an unparseable backup-folder name makes retention pruning abort the
run with the fatal retention error before any folder is removed, rather than
the folder being skipped: the per-entry `unwrap` fires while collecting the
listing, so the trace is empty and the outcome is the retention failure. -/
theorem prune_unparseable (w : World) (e : StateEntry)
    (he : e ∈ w.stateEntries) (hpe : e.parsed = none) :
    prune w = ([], some Err.retentionError) :=
  prune_parse_none (parseEntries_none w.stateEntries e he hpe)

/-- World whose state dir holds one unparseable folder name. -/
def w9 : World :=
  { conflicts := [], mainDbTs := 0, spawnOk := true, streamOk := true,
    importExit := 0, stateEntries := [⟨"not-a-timestamp", none⟩, ⟨"f1", some 1⟩],
    keep := some 0 }

theorem prune_unparseable_witness :
    (⟨"not-a-timestamp", none⟩ : StateEntry) ∈ w9.stateEntries ∧
      (⟨"not-a-timestamp", none⟩ : StateEntry).parsed = none ∧
      prune w9 = ([], some Err.retentionError) :=
  ⟨by decide, rfl, prune_unparseable w9 ⟨"not-a-timestamp", none⟩ (by decide) rfl⟩

end STR
